import Mathlib

/-
Verification of a binary search tree implementation (JavaScript sources:
BinarySearchTree.js, Node.js, Stack.js, Queue.js).

The development has three layers:

1. A pure tree model (`BST.Tree`): each JS `Node` (value, left, right) becomes a
   constructor `Tree.node`, `null` becomes `Tree.nil`.  The recursive methods
   `#buildTree`, `insert`, `remove`, `find`, `getSmallestNode`, `height`,
   `isBalanced`, `rebalance` are translated directly; in-place child-link
   assignment followed by `return root` becomes rebuilding the node with the
   returned subtree, which is observationally identical for acyclic,
   unaliased trees.

2. A decorated tree model (`BST.DTree`): every node additionally carries its
   path from the root (`List Bool`, false = left, true = right).  Paths are
   unique, so structural equality of decorated nodes models JavaScript object
   identity; this is needed for the iterative `postOrder`, which compares
   nodes with `!==`.  The four iterative traversals (queue-based `levelOrder`,
   stack-based `preOrder`, `inOrder`, and `postOrder` with a last-visited
   marker) are translated as loops over explicit queue/stack lists.

3. A heap model (`BST.Heap`): node objects live at addresses, fields hold
   optional addresses, mutation is explicit heap update.  This captures the
   frame behaviour of `insert` and `remove` (they mutate child links in place,
   never the `root` attribute of the tree object) and the fact that a failed
   duplicate insert leaves the heap untouched.
-/

namespace BST

/-- JavaScript `null`-or-`Node`: a tree is absent (`nil`) or a node with a
value and two children, mirroring `Node.js` (fields value, left, right). -/
inductive Tree where
  | nil : Tree
  | node (value : Int) (left : Tree) (right : Tree) : Tree
deriving DecidableEq

/-- The error thrown by `insert` when the value already exists in the tree
(BinarySearchTree.js line 43). -/
inductive JsError where
  | duplicateValue (value : Int)
deriving DecidableEq

/-- Helper: the `value` field of a node; only meaningful on non-`nil` trees
(reading `value` of JS `null` would throw, which never happens in the code). -/
def rootVal : Tree → Int
  | .nil => 0
  | .node v _ _ => v

/-- Helper: the `left` field of a node. -/
def treeLeft : Tree → Tree
  | .nil => .nil
  | .node _ l _ => l

/-- Helper: the `right` field of a node. -/
def treeRight : Tree → Tree
  | .nil => .nil
  | .node _ _ r => r

/-- `#buildTree(values)` (BinarySearchTree.js lines 18-28): empty array gives
`null`; otherwise the floor-midpoint element becomes the root, the left slice
(exclusive) builds the left subtree, the slice after the midpoint builds the
right subtree. -/
def buildTree (values : List Int) : Tree :=
  if values.length = 0 then .nil
  else
    let midIndex := values.length / 2
    .node (values.getD midIndex 0)
      (buildTree (values.take midIndex))
      (buildTree (values.drop (midIndex + 1)))
termination_by values.length
decreasing_by
  · have hn : 0 < values.length := by omega
    have h1 : values.length / 2 ≤ values.length := Nat.div_le_self _ _
    rw [List.length_take, Nat.min_eq_left h1]
    exact Nat.div_lt_self hn (by norm_num)
  · have hn : 0 < values.length := by omega
    rw [List.length_drop]
    omega

/-- `insert(value, root)` (lines 37-51): `null` slot gets a fresh leaf node;
an equal value throws; otherwise the code recurses into the matching child
slot, reattaches the result, and returns the (unchanged) root node.  The
final no-comparison-matched case (impossible for real numbers other than NaN)
falls through to `return root`. -/
def insert (value : Int) : Tree → Except JsError Tree
  | .nil => .ok (.node value .nil .nil)
  | .node w l r =>
    if value = w then .error (.duplicateValue value)
    else if value < w then
      match insert value l with
      | .error e => .error e
      | .ok l2 => .ok (.node w l2 r)
    else if value > w then
      match insert value r with
      | .error e => .error e
      | .ok r2 => .ok (.node w l r2)
    else .ok (.node w l r)

/-- `getSmallestNode(root)` (lines 306-312): walk `left` links until absent,
return that node.  On `null` input the JS would throw; the code only calls it
on non-null subtrees, and we return `nil` in that unreachable case. -/
def getSmallestNode : Tree → Tree
  | .nil => .nil
  | .node v .nil r => .node v .nil r
  | .node _ (.node w a b) _ => getSmallestNode (.node w a b)

/-- `remove(value, root)` (lines 59-81): descend by comparison; on an exact
match splice out a node with at most one child, otherwise copy the in-order
successor's value (smallest of the right subtree) into the node and remove
that value from the right subtree. -/
def remove (value : Int) : Tree → Tree
  | .nil => .nil
  | .node w l r =>
    if value < w then .node w (remove value l) r
    else if value > w then .node w l (remove value r)
    else
      match l, r with
      | .nil, _ => r
      | .node lv la lb, .nil => .node lv la lb
      | .node lv la lb, .node rv ra rb =>
        let successor := getSmallestNode (.node rv ra rb)
        .node (rootVal successor) (.node lv la lb)
          (remove (rootVal successor) (.node rv ra rb))

/-- `find(value, root)` (lines 89-99): recursive descent by comparison,
returning the node with the given value or `null`.  The missing final `else`
in the JS source returns `undefined`, modelled as `none`. -/
def find (value : Int) : Tree → Option Tree
  | .nil => none
  | .node w l r =>
    if value = w then some (.node w l r)
    else if value < w then find value l
    else if value > w then find value r
    else none

/-- `height(node)` (lines 244-247): `-1` for an absent node, else one more
than the larger child height. -/
def height : Tree → Int
  | .nil => -1
  | .node _ l r => 1 + max (height l) (height r)

/-- `isBalanced(root)` (lines 278-289): true on `null`; false when the child
heights differ by more than one; otherwise both subtrees must be balanced. -/
def isBalanced : Tree → Bool
  | .nil => true
  | .node _ l r =>
    if (height l - height r).natAbs > 1 then false
    else isBalanced l && isBalanced r

/-- Specification helper: Boolean membership of a value in a tree. -/
def contains (value : Int) : Tree → Bool
  | .nil => false
  | .node w l r => decide (value = w) || contains value l || contains value r

/-- Specification helper: every value in the tree satisfies `p`. -/
def allB (p : Int → Bool) : Tree → Bool
  | .nil => true
  | .node v l r => p v && allB p l && allB p r

/-- Specification helper: the BST ordering invariant of §3 of the spec — at
every node, all left-subtree values are strictly smaller and all
right-subtree values strictly larger. -/
def isBST : Tree → Bool
  | .nil => true
  | .node v l r =>
    allB (fun x => decide (x < v)) l && allB (fun x => decide (v < x)) r &&
      isBST l && isBST r

/-- Specification helper: the recursive in-order value sequence
(left subtree, node, right subtree). -/
def inorderVals : Tree → List Int
  | .nil => []
  | .node v l r => inorderVals l ++ v :: inorderVals r

/-- Decorated tree: every node carries its path from the root
(false = left link, true = right link).  Paths of distinct nodes in a
decorated tree are distinct, so structural equality on decorated nodes
models JavaScript object identity, which `postOrder` relies on via `!==`. -/
inductive DTree where
  | nil : DTree
  | node (path : List Bool) (value : Int) (left : DTree) (right : DTree) : DTree
deriving DecidableEq

/-- Decorate a tree with the path of every node, starting from path `p`. -/
def decorate : Tree → List Bool → DTree
  | .nil, _ => .nil
  | .node v l r, p =>
    .node p v (decorate l (p ++ [false])) (decorate r (p ++ [true]))

/-- Value field of a decorated node (only used on non-`nil` nodes). -/
def dvalue : DTree → Int
  | .nil => 0
  | .node _ v _ _ => v

/-- Path field of a decorated node (only used on non-`nil` nodes). -/
def pathOf : DTree → List Bool
  | .nil => []
  | .node p _ _ _ => p

/-- Right child of a decorated node. -/
def rightOf : DTree → DTree
  | .nil => .nil
  | .node _ _ _ r => r

/-- Number of nodes of a decorated tree. -/
def dsize : DTree → Nat
  | .nil => 0
  | .node _ _ l r => 1 + dsize l + dsize r

/-- The conditional enqueue/push of a child: JS pushes a child only when it
is non-null (`if (node.left) ...`). -/
def optNode : DTree → List DTree
  | .nil => []
  | .node p v l r => [.node p v l r]

/-- Termination measure for the level-order queue and pre-order stack loops. -/
def qWeight (q : List DTree) : Nat :=
  (q.map (fun t => 2 * dsize t + 1)).sum

/-- The `levelOrder` while loop (lines 120-130): dequeue a node from the
front, visit it, enqueue its non-null children at the back.  The queue only
ever holds non-null nodes; the `nil` head case is unreachable and skipped. -/
def levelLoop (q : List DTree) : List DTree :=
  match q with
  | [] => []
  | .nil :: rest => levelLoop rest
  | (.node p v l r) :: rest =>
    .node p v l r :: levelLoop (rest ++ optNode l ++ optNode r)
termination_by qWeight q
decreasing_by
  · simp [qWeight]
  · have hl : ((optNode l).map (fun t => 2 * dsize t + 1)).sum ≤ 2 * dsize l + 1 := by
      cases l <;> simp [optNode]
    have hr : ((optNode r).map (fun t => 2 * dsize t + 1)).sum ≤ 2 * dsize r + 1 := by
      cases r <;> simp [optNode]
    simp only [qWeight, List.map_append, List.sum_append, List.map_cons,
      List.sum_cons, dsize]
    omega

/-- `levelOrder(callback, root)` (lines 111-131) as the list of visited
nodes: no-op on a null root, otherwise run the queue loop seeded with the
root. -/
def levelOrderNodes (t : Tree) : List DTree :=
  match decorate t [] with
  | .nil => []
  | .node p v l r => levelLoop [.node p v l r]

/-- The `preOrder` while loop (lines 152-162): pop the top of the stack,
visit it, push the non-null right child then the non-null left child (so the
left child is popped first). -/
def preLoop (s : List DTree) : List DTree :=
  match s with
  | [] => []
  | .nil :: rest => preLoop rest
  | (.node p v l r) :: rest =>
    .node p v l r :: preLoop (optNode l ++ optNode r ++ rest)
termination_by qWeight s
decreasing_by
  · simp [qWeight]
  · have hl : ((optNode l).map (fun t => 2 * dsize t + 1)).sum ≤ 2 * dsize l + 1 := by
      cases l <;> simp [optNode]
    have hr : ((optNode r).map (fun t => 2 * dsize t + 1)).sum ≤ 2 * dsize r + 1 := by
      cases r <;> simp [optNode]
    simp only [qWeight, List.map_append, List.sum_append, List.map_cons,
      List.sum_cons, dsize]
    omega

/-- `preOrder(callback, root)` (lines 143-163) as the list of visited
nodes. -/
def preOrderNodes (t : Tree) : List DTree :=
  match decorate t [] with
  | .nil => []
  | .node p v l r => preLoop [.node p v l r]

/-- Termination measure for the in-order loop: a pending current subtree
costs twice its size; a stacked node costs one visit plus twice the size of
its still-unvisited right subtree. -/
def inWeight (c : DTree) (s : List DTree) : Nat :=
  2 * dsize c + (s.map (fun t => 2 * dsize (rightOf t) + 1)).sum

/-- The `inOrder` while loop (lines 186-196) on state (currentNode, stack):
descend left pushing every node, then pop, visit, and continue with the
popped node's right child.  The stack only ever holds non-null nodes. -/
def inLoop (c : DTree) (s : List DTree) : List DTree :=
  match c with
  | .node p v l r => inLoop l (.node p v l r :: s)
  | .nil =>
    match s with
    | [] => []
    | .nil :: rest => inLoop .nil rest
    | (.node p v l r) :: rest => .node p v l r :: inLoop r rest
termination_by inWeight c s
decreasing_by
  · simp only [inWeight, dsize, List.map_cons, List.sum_cons, rightOf]
    omega
  · simp only [inWeight, dsize, List.map_cons, List.sum_cons, rightOf]
    omega
  · simp only [inWeight, dsize, List.map_cons, List.sum_cons, rightOf]
    omega

/-- `inOrder(callback, root)` (lines 176-197) as the list of visited
nodes. -/
def inOrderNodes (t : Tree) : List DTree :=
  match decorate t [] with
  | .nil => []
  | .node p v l r => inLoop (.node p v l r) []

/-- The value sequence collected by an `inOrder` traversal, as in
`rebalance` (line 297: the callback pushes `node.value`). -/
def inOrderValues (t : Tree) : List Int :=
  (inOrderNodes t).map dvalue

/-- `rebalance()` (lines 295-299): collect all values with `inOrder`, then
rebuild the root with `#buildTree` on that sequence. -/
def rebalance (t : Tree) : Tree :=
  buildTree (inOrderValues t)

/-- Exact number of loop iterations the `postOrder` loop spends on a
subtree: one push per node, one visit per node, and one descend-right step
per node with a non-null right child. -/
def postSteps : DTree → Nat
  | .nil => 0
  | .node _ _ l r =>
    1 + postSteps l + (match r with | .nil => 0 | _ => 1 + postSteps r) + 1

/-- The `postOrder` while loop (lines 221-235) on state (fuel, currentNode,
stack, lastVisitedNode): descend left pushing every node; at the stack top,
if it has a right child that is not the last visited node, descend into that
right child, otherwise visit the top and pop it, recording it as last
visited.  The JS `lastVisitedNode !== peekNode.right` identity comparison is
structural equality of decorated nodes.  Fuel makes the loop a total
function; `postSteps` fuel is proved sufficient below. -/
def postLoopF : Nat → DTree → List DTree → Option DTree → Option (List DTree)
  | 0, _, _, _ => none
  | fuel + 1, .node p v l r, s, lv => postLoopF fuel l (.node p v l r :: s) lv
  | _ + 1, .nil, [], _ => some []
  | fuel + 1, .nil, .nil :: rest, lv => postLoopF fuel .nil rest lv
  | fuel + 1, .nil, (.node p v l r) :: rest, lv =>
    if r ≠ .nil ∧ lv ≠ some r then
      postLoopF fuel r (.node p v l r :: rest) lv
    else
      (postLoopF fuel .nil rest (some (.node p v l r))).map
        (fun out => .node p v l r :: out)

/-- `postOrder(callback, root)` (lines 210-236) as the list of visited
nodes. -/
def postOrderNodes (t : Tree) : List DTree :=
  match decorate t [] with
  | .nil => []
  | .node p v l r =>
    (postLoopF (postSteps (.node p v l r) + 1) (.node p v l r) [] none).getD []

/-- Specification helper: recursive pre-order node enumeration. -/
def preD : DTree → List DTree
  | .nil => []
  | .node p v l r => .node p v l r :: (preD l ++ preD r)

/-- Specification helper: recursive in-order node enumeration; it lists each
node of the tree exactly once and serves as the canonical node list. -/
def inD : DTree → List DTree
  | .nil => []
  | .node p v l r => inD l ++ .node p v l r :: inD r

/-- Specification helper: recursive post-order node enumeration. -/
def postD : DTree → List DTree
  | .nil => []
  | .node p v l r => postD l ++ postD r ++ [.node p v l r]

/-- Specification helper: paths of all nodes of a decorated tree. -/
def dpaths : DTree → List (List Bool)
  | .nil => []
  | .node p _ l r => p :: (dpaths l ++ dpaths r)

/-- Trailing emissions of the in-order loop for a given stack: each stacked
node is visited and then its right subtree is traversed. -/
def stackTail : List DTree → List DTree
  | [] => []
  | .nil :: rest => stackTail rest
  | (.node p v l r) :: rest => .node p v l r :: (inD r ++ stackTail rest)

/-- Heap model: a node object with a value and two child links; a link is an
address (`some a`) or JS `null` (`none`). -/
structure NodeObj where
  value : Int
  left : Option Nat
  right : Option Nat
deriving DecidableEq

/-- Heap model: node objects indexed by address; allocation appends at the
end, so every allocated address stays valid and objects are never moved. -/
abbrev Heap := List NodeObj

/-- The mutable tree object: its `root` attribute is `null` or the address
of the root node (BinarySearchTree.js line 10 assigns it in the
constructor). -/
structure BSTState where
  heap : Heap
  root : Option Nat
deriving DecidableEq

/-- `insert(value, root)` on the heap (lines 37-51): a `null` root allocates
and returns a fresh node; an equal value throws, leaving the heap exactly as
it was at the time of the throw; otherwise the recursive result is written
into the matching child field of the current node object, and the current
address is returned.  `none` means the fuel ran out or a link dangled,
neither of which happens on well-formed states with enough fuel. -/
def insertH : Nat → Int → Heap → Option Nat → Option (Heap × Except JsError Nat)
  | 0, _, _, _ => none
  | _ + 1, value, h, none => some (h ++ [⟨value, none, none⟩], .ok h.length)
  | fuel + 1, value, h, some a =>
    match h.get? a with
    | none => none
    | some nd =>
      if value = nd.value then some (h, .error (.duplicateValue value))
      else if value < nd.value then
        match insertH fuel value h nd.left with
        | none => none
        | some (h2, .error e) => some (h2, .error e)
        | some (h2, .ok a2) =>
          match h2.get? a with
          | none => none
          | some nd2 => some (h2.set a { nd2 with left := some a2 }, .ok a)
      else if value > nd.value then
        match insertH fuel value h nd.right with
        | none => none
        | some (h2, .error e) => some (h2, .error e)
        | some (h2, .ok a2) =>
          match h2.get? a with
          | none => none
          | some nd2 => some (h2.set a { nd2 with right := some a2 }, .ok a)
      else some (h, .ok a)

/-- `getSmallestNode(root)` on the heap (lines 306-312): follow `left` links
until absent and return that address. -/
def getSmallestH : Nat → Heap → Nat → Option Nat
  | 0, _, _ => none
  | fuel + 1, h, a =>
    match h.get? a with
    | none => none
    | some nd =>
      match nd.left with
      | none => some a
      | some la => getSmallestH fuel h la

/-- `remove(value, root)` on the heap (lines 59-81): descend by comparison,
writing the recursive result into the matching child field; on an exact
match return the other child when one is absent, else copy the in-order
successor's value into the node and remove that value from the right
subtree. -/
def removeH : Nat → Int → Heap → Option Nat → Option (Heap × Option Nat)
  | 0, _, _, _ => none
  | _ + 1, _, h, none => some (h, none)
  | fuel + 1, value, h, some a =>
    match h.get? a with
    | none => none
    | some nd =>
      if value < nd.value then
        match removeH fuel value h nd.left with
        | none => none
        | some (h2, newL) =>
          match h2.get? a with
          | none => none
          | some nd2 => some (h2.set a { nd2 with left := newL }, some a)
      else if value > nd.value then
        match removeH fuel value h nd.right with
        | none => none
        | some (h2, newR) =>
          match h2.get? a with
          | none => none
          | some nd2 => some (h2.set a { nd2 with right := newR }, some a)
      else
        match nd.left with
        | none => some (h, nd.right)
        | some _ =>
          match nd.right with
          | none => some (h, nd.left)
          | some ra =>
            match getSmallestH fuel h ra with
            | none => none
            | some sa =>
              match h.get? sa with
              | none => none
              | some snd =>
                let h1 := h.set a { nd with value := snd.value }
                match removeH fuel snd.value h1 (some ra) with
                | none => none
                | some (h2, newR) =>
                  match h2.get? a with
                  | none => none
                  | some nd2 => some (h2.set a { nd2 with right := newR }, some a)

/-- The top-level method call `tree.insert(value)`: the default argument is
`this.root`, and the body never assigns `this.root` — it only mutates the
heap and returns a node address (or throws). -/
def insertMethod (fuel : Nat) (value : Int) (st : BSTState) :
    Option (BSTState × Except JsError Nat) :=
  match insertH fuel value st.heap st.root with
  | none => none
  | some (h2, res) => some (⟨h2, st.root⟩, res)

/-- The top-level method call `tree.remove(value)`: the default argument is
`this.root`, and the body never assigns `this.root`. -/
def removeMethod (fuel : Nat) (value : Int) (st : BSTState) :
    Option (BSTState × Option Nat) :=
  match removeH fuel value st.heap st.root with
  | none => none
  | some (h2, res) => some (⟨h2, st.root⟩, res)

/-- Read the pure tree stored at an address of the heap; `none` when the
fuel is insufficient or a link dangles. -/
def readTree : Nat → Heap → Option Nat → Option Tree
  | 0, _, _ => none
  | _ + 1, _, none => some .nil
  | fuel + 1, h, some a =>
    match h.get? a with
    | none => none
    | some nd =>
      match readTree fuel h nd.left, readTree fuel h nd.right with
      | some l, some r => some (.node nd.value l r)
      | _, _ => none

/-- The bounded `allB` predicate holds exactly when every contained value
satisfies the bound. -/
theorem allB_eq_true_iff (p : Int → Bool) :
    ∀ t : Tree, allB p t = true ↔ ∀ w, contains w t = true → p w = true := by
  intro t
  induction t with
  | nil => simp [allB, contains]
  | node v l r ihl ihr =>
    simp only [allB, contains, Bool.and_eq_true, Bool.or_eq_true,
      decide_eq_true_eq, or_assoc, ihl, ihr]
    constructor
    · rintro ⟨⟨hv, hl⟩, hr⟩ w (rfl | hw | hw)
      · exact hv
      · exact hl w hw
      · exact hr w hw
    · intro h
      exact ⟨⟨h v (Or.inl rfl), fun w hw => h w (Or.inr (Or.inl hw))⟩,
        fun w hw => h w (Or.inr (Or.inr hw))⟩

/-- A value contained in a tree all of whose values satisfy `p` satisfies
`p`. -/
theorem allB_contains {p : Int → Bool} {t : Tree} {w : Int}
    (hall : allB p t = true) (hw : contains w t = true) : p w = true :=
  (allB_eq_true_iff p t).1 hall w hw

/-- Unfolding of `contains` at a node, in propositional form. -/
theorem contains_node_iff (v w : Int) (l r : Tree) :
    contains v (.node w l r) = true ↔
      v = w ∨ contains v l = true ∨ contains v r = true := by
  simp [contains, or_assoc]

/-- Unfolding of `contains = false` at a node, one level only. -/
theorem contains_node_eq_false_iff (v w : Int) (l r : Tree) :
    contains v (.node w l r) = false ↔
      ¬ v = w ∧ contains v l = false ∧ contains v r = false := by
  simp [contains, and_assoc]

/-- A value violating a bound satisfied by the whole tree is not
contained. -/
theorem not_contains_of_allB {p : Int → Bool} {t : Tree} {v : Int}
    (hall : allB p t = true) (hv : ¬ p v = true) : contains v t = false := by
  by_contra hc
  rw [Bool.not_eq_false] at hc
  exact hv (allB_contains hall hc)

/-- Unfolding of the BST invariant at a node, one level only. -/
theorem isBST_node_iff (v : Int) (l r : Tree) :
    isBST (.node v l r) = true ↔
      allB (fun x => decide (x < v)) l = true ∧
        allB (fun x => decide (v < x)) r = true ∧
        isBST l = true ∧ isBST r = true := by
  simp [isBST, and_assoc]

/-- `find` misses exactly when the value is absent: a miss returns the
explicit `none` result, never an error. -/
theorem find_eq_none_of_not_contains :
    ∀ (t : Tree) (v : Int), contains v t = false → find v t = none := by
  intro t
  induction t with
  | nil => intro v _; rfl
  | node w l r ihl ihr =>
    intro v h
    simp only [contains, Bool.or_eq_false_iff, decide_eq_false_iff_not] at h
    obtain ⟨⟨hvw, hl⟩, hr⟩ := h
    simp only [find, if_neg hvw]
    split
    · exact ihl v hl
    · split
      · exact ihr v hr
      · rfl

/-- Unfolding of `remove` at a node. -/
theorem remove_node_eq (v w : Int) (l r : Tree) :
    remove v (.node w l r) =
      if v < w then .node w (remove v l) r
      else if v > w then .node w l (remove v r)
      else
        match l, r with
        | .nil, _ => r
        | .node lv la lb, .nil => .node lv la lb
        | .node lv la lb, .node rv ra rb =>
          .node (rootVal (getSmallestNode (.node rv ra rb))) (.node lv la lb)
            (remove (rootVal (getSmallestNode (.node rv ra rb)))
              (.node rv ra rb)) := by
  rw [remove.eq_def]

/-- Removing an absent value is the identity on the tree structure. -/
theorem remove_eq_self_of_not_contains :
    ∀ (t : Tree) (v : Int), contains v t = false → remove v t = t := by
  intro t
  induction t with
  | nil => intro v _; rfl
  | node w l r ihl ihr =>
    intro v h
    simp only [contains, Bool.or_eq_false_iff, decide_eq_false_iff_not] at h
    obtain ⟨⟨hvw, hl⟩, hr⟩ := h
    rw [remove_node_eq]
    split
    · rw [ihl v hl]
    · split
      · rw [ihr v hr]
      · exfalso; omega

/-- Claim C7: for every tree and every value `v` not present in it,
`remove(v)` does not fail and returns the unchanged structure, and a lookup
of `v` returns the explicit absent result `none` rather than an error
(`remove` and `find` are total functions in the model, so no error is even
possible). -/
theorem remove_absent_noop :
    ∀ (t : Tree) (v : Int), contains v t = false →
      remove v t = t ∧ find v t = none := by
  intro t v h
  exact ⟨remove_eq_self_of_not_contains t v h, find_eq_none_of_not_contains t v h⟩

/-- Witness for C7 on a concrete tree and value. -/
theorem remove_absent_noop_witness :
    contains 3 (.node 5 .nil .nil) = false ∧
      (remove 3 (.node 5 .nil .nil) = .node 5 .nil .nil ∧
        find 3 (.node 5 .nil .nil) = none) :=
  ⟨by decide, remove_absent_noop (.node 5 .nil .nil) 3 (by decide)⟩

/-- Inserting a value that is not contained in the tree succeeds, the result
contains exactly the old values plus the new one, and on a BST the result is
again a BST in which `find` locates the freshly allocated leaf node. -/
theorem insert_ok :
    ∀ (t : Tree) (v : Int), contains v t = false →
      ∃ t2, insert v t = .ok t2 ∧
        (∀ w, contains w t2 = true ↔ (contains w t = true ∨ w = v)) ∧
        (isBST t = true → isBST t2 = true ∧
          find v t2 = some (.node v .nil .nil)) := by
  intro t
  induction t with
  | nil =>
    intro v _
    refine ⟨.node v .nil .nil, rfl, ?_, ?_⟩
    · intro w; simp [contains]
    · intro _
      refine ⟨by simp [isBST, allB], ?_⟩
      simp [find]
  | node w l r ihl ihr =>
    intro v h
    simp only [contains, Bool.or_eq_false_iff, decide_eq_false_iff_not] at h
    obtain ⟨⟨hvw, hl⟩, hr⟩ := h
    rcases lt_trichotomy v w with hlt | heq | hgt
    · obtain ⟨l2, hins, hmem, hbst⟩ := ihl v hl
      refine ⟨.node w l2 r, ?_, ?_, ?_⟩
      · simp [insert, hvw, hlt, hins]
      · intro w2
        simp only [contains_node_iff, hmem, contains_node_iff]
        tauto
      · intro hb
        simp only [isBST, Bool.and_eq_true] at hb
        obtain ⟨⟨⟨hal, har⟩, hbl⟩, hbr⟩ := hb
        obtain ⟨hbst2, hfind⟩ := hbst hbl
        constructor
        · simp only [isBST, Bool.and_eq_true]
          refine ⟨⟨⟨?_, har⟩, hbst2⟩, hbr⟩
          rw [allB_eq_true_iff]
          intro x hx
          rcases (hmem x).1 hx with hx2 | rfl
          · exact allB_contains hal hx2
          · simp [hlt]
        · simp [find, hvw, hlt, hfind]
    · exact absurd heq hvw
    · obtain ⟨r2, hins, hmem, hbst⟩ := ihr v hr
      refine ⟨.node w l r2, ?_, ?_, ?_⟩
      · simp [insert, hvw, hgt, hins, show ¬ v < w by omega]
      · intro w2
        simp only [contains_node_iff, hmem, contains_node_iff]
        tauto
      · intro hb
        simp only [isBST, Bool.and_eq_true] at hb
        obtain ⟨⟨⟨hal, har⟩, hbl⟩, hbr⟩ := hb
        obtain ⟨hbst2, hfind⟩ := hbst hbr
        constructor
        · simp only [isBST, Bool.and_eq_true]
          refine ⟨⟨⟨hal, ?_⟩, hbl⟩, hbst2⟩
          rw [allB_eq_true_iff]
          intro x hx
          rcases (hmem x).1 hx with hx2 | rfl
          · exact allB_contains har hx2
          · simp [hgt]
        · simp [find, hvw, hfind, show ¬ v < w by omega, hgt]

/-- Claim C2: for every BST and every value `v` not already present,
`insert(v)` succeeds and `find(v)` on the updated tree returns the newly
inserted node (a fresh leaf holding `v`), and the BST ordering invariant
holds for every node afterward. -/
theorem insert_then_find_inserted :
    ∀ (t : Tree) (v : Int), isBST t = true → contains v t = false →
      ∃ t2, insert v t = .ok t2 ∧ find v t2 = some (.node v .nil .nil) ∧
        isBST t2 = true := by
  intro t v hb hc
  obtain ⟨t2, hins, _, hbst⟩ := insert_ok t v hc
  obtain ⟨hbst2, hfind⟩ := hbst hb
  exact ⟨t2, hins, hfind, hbst2⟩

/-- Witness for C2 on a concrete tree and value. -/
theorem insert_then_find_inserted_witness :
    isBST (.node 2 .nil .nil) = true ∧ contains 3 (.node 2 .nil .nil) = false ∧
      ∃ t2, insert 3 (.node 2 .nil .nil) = .ok t2 ∧
        find 3 t2 = some (.node 3 .nil .nil) ∧ isBST t2 = true :=
  ⟨by decide, by decide,
    insert_then_find_inserted (.node 2 .nil .nil) 3 (by decide) (by decide)⟩

/-- The value of the smallest node of a non-empty tree is contained in the
tree. -/
theorem getSmallest_contains :
    ∀ t : Tree, t ≠ .nil → contains (rootVal (getSmallestNode t)) t = true := by
  intro t
  induction t with
  | nil => intro h; exact absurd rfl h
  | node v l r ihl ihr =>
    intro _
    cases l with
    | nil => simp [getSmallestNode, rootVal, contains]
    | node lv la lb =>
      have hin := ihl (by simp)
      simp only [getSmallestNode]
      rw [contains_node_iff]
      exact Or.inr (Or.inl hin)

/-- On a BST, `getSmallestNode` returns a minimum: its value is below every
contained value. -/
theorem smallest_le :
    ∀ t : Tree, isBST t = true → ∀ w, contains w t = true →
      rootVal (getSmallestNode t) ≤ w := by
  intro t
  induction t with
  | nil => intro _ w hw; simp [contains] at hw
  | node v l r ihl ihr =>
    intro hb w hw
    simp only [isBST, Bool.and_eq_true] at hb
    obtain ⟨⟨⟨hal, har⟩, hbl⟩, hbr⟩ := hb
    rw [contains_node_iff] at hw
    cases l with
    | nil =>
      simp only [getSmallestNode, rootVal]
      rcases hw with rfl | hw | hw
      · exact le_refl w
      · simp [contains] at hw
      · have hvw : v < w := by have := allB_contains har hw; simpa using this
        omega
    | node lv la lb =>
      simp only [getSmallestNode]
      have hin := getSmallest_contains (.node lv la lb) (by simp)
      have hlt_v : rootVal (getSmallestNode (.node lv la lb)) < v := by
        have := allB_contains hal hin; simpa using this
      rcases hw with rfl | hw | hw
      · exact le_of_lt hlt_v
      · exact ihl hbl w hw
      · have hvw : v < w := by have := allB_contains har hw; simpa using this
        omega

/-- Values of `remove v t` are values of `t`: removal never introduces a new
value (the successor value copied into a two-child node came from the right
subtree). -/
theorem remove_subset :
    ∀ (t : Tree) (v w : Int),
      contains w (remove v t) = true → contains w t = true := by
  intro t
  induction t with
  | nil => intro v w h; simpa [remove] using h
  | node x l r ihl ihr =>
    intro v w h
    rw [remove_node_eq] at h
    by_cases h1 : v < x
    · rw [if_pos h1] at h
      rw [contains_node_iff] at h ⊢
      rcases h with rfl | h | h
      · exact Or.inl rfl
      · exact Or.inr (Or.inl (ihl v w h))
      · exact Or.inr (Or.inr h)
    · rw [if_neg h1] at h
      by_cases h2 : v > x
      · rw [if_pos h2] at h
        rw [contains_node_iff] at h ⊢
        rcases h with rfl | h | h
        · exact Or.inl rfl
        · exact Or.inr (Or.inl h)
        · exact Or.inr (Or.inr (ihr v w h))
      · rw [if_neg h2] at h
        cases l with
        | nil =>
          rw [contains_node_iff]
          exact Or.inr (Or.inr h)
        | node lv la lb =>
          cases r with
          | nil =>
            rw [contains_node_iff]
            exact Or.inr (Or.inl h)
          | node rv ra rb =>
            rw [contains_node_iff] at h ⊢
            rcases h with rfl | h | h
            · exact Or.inr (Or.inr
                (getSmallest_contains (.node rv ra rb) (by simp)))
            · exact Or.inr (Or.inl h)
            · exact Or.inr (Or.inr (ihr _ w h))

/-- On a BST, after `remove v` the value `v` is gone. -/
theorem remove_not_contains_self :
    ∀ (t : Tree) (v : Int), isBST t = true →
      contains v (remove v t) = false := by
  intro t
  induction t with
  | nil => intro v _; rfl
  | node x l r ihl ihr =>
    intro v hb
    rw [isBST_node_iff] at hb
    obtain ⟨hal, har, hbl, hbr⟩ := hb
    rw [remove_node_eq]
    by_cases h1 : v < x
    · rw [if_pos h1, contains_node_eq_false_iff]
      refine ⟨by omega, ihl v hbl, ?_⟩
      exact not_contains_of_allB har
        (by simp only [decide_eq_true_eq]; omega)
    · rw [if_neg h1]
      by_cases h2 : v > x
      · rw [if_pos h2, contains_node_eq_false_iff]
        refine ⟨by omega, ?_, ihr v hbr⟩
        exact not_contains_of_allB hal
          (by simp only [decide_eq_true_eq]; omega)
      · rw [if_neg h2]
        have hvx : v = x := by omega
        subst hvx
        cases l with
        | nil =>
          exact not_contains_of_allB har
            (by simp only [decide_eq_true_eq]; omega)
        | node lv la lb =>
          cases r with
          | nil =>
            exact not_contains_of_allB hal
              (by simp only [decide_eq_true_eq]; omega)
          | node rv ra rb =>
            have hsv_in : contains (rootVal (getSmallestNode (.node rv ra rb)))
                (.node rv ra rb) = true :=
              getSmallest_contains _ (by simp)
            have hxsv : v < rootVal (getSmallestNode (.node rv ra rb)) := by
              have := allB_contains har hsv_in; simpa using this
            rw [contains_node_eq_false_iff]
            refine ⟨by omega, ?_, ?_⟩
            · exact not_contains_of_allB hal
                (by simp only [decide_eq_true_eq]; omega)
            · by_contra hc
              rw [Bool.not_eq_false] at hc
              have hvr := remove_subset _ _ v hc
              have := allB_contains har hvr
              simp only [decide_eq_true_eq] at this
              omega

/-- Removal preserves any value bound satisfied by the whole tree. -/
theorem remove_preserves_allB (p : Int → Bool) (t : Tree) (v : Int)
    (h : allB p t = true) : allB p (remove v t) = true := by
  rw [allB_eq_true_iff] at h ⊢
  intro w hw
  exact h w (remove_subset t v w hw)

/-- Removal preserves the BST ordering invariant at every node. -/
theorem remove_preserves_isBST :
    ∀ (t : Tree) (v : Int), isBST t = true → isBST (remove v t) = true := by
  intro t
  induction t with
  | nil => intro v _; rfl
  | node x l r ihl ihr =>
    intro v hb
    rw [isBST_node_iff] at hb
    obtain ⟨hal, har, hbl, hbr⟩ := hb
    rw [remove_node_eq]
    by_cases h1 : v < x
    · rw [if_pos h1, isBST_node_iff]
      exact ⟨remove_preserves_allB _ l v hal, har, ihl v hbl, hbr⟩
    · rw [if_neg h1]
      by_cases h2 : v > x
      · rw [if_pos h2, isBST_node_iff]
        exact ⟨hal, remove_preserves_allB _ r v har, hbl, ihr v hbr⟩
      · rw [if_neg h2]
        cases l with
        | nil => exact hbr
        | node lv la lb =>
          cases r with
          | nil => exact hbl
          | node rv ra rb =>
            have hsv_in : contains (rootVal (getSmallestNode (.node rv ra rb)))
                (.node rv ra rb) = true :=
              getSmallest_contains _ (by simp)
            have hxsv : x < rootVal (getSmallestNode (.node rv ra rb)) := by
              have := allB_contains har hsv_in; simpa using this
            rw [isBST_node_iff]
            refine ⟨?_, ?_, hbl, ihr _ hbr⟩
            · rw [allB_eq_true_iff]
              intro y hy
              have hyx : y < x := by
                have := allB_contains hal hy; simpa using this
              simp only [decide_eq_true_eq]; omega
            · rw [allB_eq_true_iff]
              intro y hy
              have hyr := remove_subset _ _ y hy
              have h_le := smallest_le _ hbr y hyr
              have h_ne : y ≠ rootVal (getSmallestNode (.node rv ra rb)) := by
                intro hEq
                rw [hEq] at hy
                rw [remove_not_contains_self _ _ hbr] at hy
                exact absurd hy (by simp)
              simp only [decide_eq_true_eq]; omega

/-- Claim C1: for every BST and every value `v` present in it, removing `v`
and then looking it up returns the explicit absent result, and the BST
ordering invariant (strictly smaller values on the left, strictly larger on
the right, at every node) still holds afterward. -/
theorem remove_then_find_absent :
    ∀ (t : Tree) (v : Int), isBST t = true → contains v t = true →
      find v (remove v t) = none ∧ isBST (remove v t) = true := by
  intro t v hb _
  exact ⟨find_eq_none_of_not_contains _ v (remove_not_contains_self t v hb),
    remove_preserves_isBST t v hb⟩

/-- Witness for C1 on a concrete BST and present value. -/
theorem remove_then_find_absent_witness :
    isBST (.node 2 (.node 1 .nil .nil) (.node 3 .nil .nil)) = true ∧
      contains 2 (.node 2 (.node 1 .nil .nil) (.node 3 .nil .nil)) = true ∧
      (find 2 (remove 2 (.node 2 (.node 1 .nil .nil) (.node 3 .nil .nil)))
          = none ∧
        isBST (remove 2 (.node 2 (.node 1 .nil .nil) (.node 3 .nil .nil)))
          = true) :=
  ⟨by decide, by decide,
    remove_then_find_absent (.node 2 (.node 1 .nil .nil) (.node 3 .nil .nil)) 2
      (by decide) (by decide)⟩

/-- Unfolding of `#buildTree` on the empty array. -/
theorem buildTree_nil : buildTree [] = .nil := by
  rw [buildTree]
  simp

/-- Unfolding of `#buildTree` on a non-empty array, one level only. -/
theorem buildTree_cons_eq (values : List Int) (h : values.length ≠ 0) :
    buildTree values =
      .node (values.getD (values.length / 2) 0)
        (buildTree (values.take (values.length / 2)))
        (buildTree (values.drop (values.length / 2 + 1))) := by
  rw [buildTree, if_neg h]

/-- Evaluation of `#buildTree` on a one-element array. -/
theorem buildTree_one (a : Int) : buildTree [a] = .node a .nil .nil := by
  rw [buildTree_cons_eq _ (by simp)]
  simp [buildTree_nil]

/-- Evaluation of `#buildTree` on a three-element array. -/
theorem buildTree_three (a b c : Int) :
    buildTree [a, b, c] = .node b (.node a .nil .nil) (.node c .nil .nil) := by
  rw [buildTree_cons_eq _ (by simp)]
  simp [buildTree_one]

/-- Evaluation of `#buildTree` on the spec's concrete input
`[1,2,3,4,5,6,7]`. -/
theorem buildTree_seven :
    buildTree [1, 2, 3, 4, 5, 6, 7] =
      .node 4 (.node 2 (.node 1 .nil .nil) (.node 3 .nil .nil))
        (.node 6 (.node 5 .nil .nil) (.node 7 .nil .nil)) := by
  rw [buildTree_cons_eq _ (by simp)]
  simp [buildTree_three]

/-- Claim C5: removing a value at a node with two children copies the value
of the in-order successor (the leftmost descendant of the right subtree)
into that node and removes the successor value from the right subtree;
concretely, on the tree built from `[1..7]`, `remove 4` replaces the root's
value with 5, after which `find 4` is absent and `find 5` returns the root
node of the updated tree. -/
theorem remove_two_children_successor :
    (∀ (v : Int) (l r : Tree), l ≠ .nil → r ≠ .nil →
      remove v (.node v l r) =
        .node (rootVal (getSmallestNode r)) l
          (remove (rootVal (getSmallestNode r)) r)) ∧
    rootVal (remove 4 (buildTree [1, 2, 3, 4, 5, 6, 7])) = 5 ∧
    find 4 (remove 4 (buildTree [1, 2, 3, 4, 5, 6, 7])) = none ∧
    find 5 (remove 4 (buildTree [1, 2, 3, 4, 5, 6, 7])) =
      some (remove 4 (buildTree [1, 2, 3, 4, 5, 6, 7])) := by
  refine ⟨?_, ?_, ?_, ?_⟩
  · intro v l r hl hr
    cases l with
    | nil => exact absurd rfl hl
    | node lv la lb =>
      cases r with
      | nil => exact absurd rfl hr
      | node rv ra rb =>
        rw [remove_node_eq, if_neg (lt_irrefl v), if_neg (lt_irrefl v)]
  · rw [buildTree_seven]; decide
  · rw [buildTree_seven]; decide
  · rw [buildTree_seven]; decide

/-- Floor base-2 logarithm of numbers below 2 is zero. -/
theorem log2_small {n : Nat} (h : n < 2) : Nat.log2 n = 0 := by
  rw [Nat.log2_eq_log_two]
  exact Nat.log_eq_zero_iff.mpr (Or.inl h)

/-- Recurrence of the floor base-2 logarithm. -/
theorem log2_rec (n : Nat) (h : 2 ≤ n) : Nat.log2 n = Nat.log2 (n / 2) + 1 := by
  rw [Nat.log2_eq_log_two, Nat.log2_eq_log_two]
  have h1 := Nat.log_div_base 2 n
  have h2 : 0 < Nat.log 2 n := Nat.log_pos (by norm_num) h
  omega

/-- Monotonicity of the floor base-2 logarithm. -/
theorem log2_mono {m n : Nat} (h : m ≤ n) : Nat.log2 m ≤ Nat.log2 n := by
  rw [Nat.log2_eq_log_two, Nat.log2_eq_log_two]
  exact Nat.log_mono_right h

/-- Height recurrence of the midpoint split: a slice of positive length `N`
splits into a left slice of length `N / 2` and a right slice of length
`N - N / 2 - 1`, and the resulting height is exactly `⌊log2 N⌋`. -/
theorem log2_height_arith (N : Nat) (h : 0 < N) :
    1 + max (if N / 2 = 0 then (-1 : Int) else (Nat.log2 (N / 2) : Int))
        (if N - N / 2 - 1 = 0 then (-1 : Int)
          else (Nat.log2 (N - N / 2 - 1) : Int)) =
      (Nat.log2 N : Int) := by
  by_cases hN1 : N = 1
  · subst hN1
    norm_num [log2_small]
  · have h2 : 2 ≤ N := by omega
    have hm1 : N / 2 ≠ 0 := by omega
    rw [if_neg hm1]
    have hrec : Nat.log2 N = Nat.log2 (N / 2) + 1 := log2_rec N h2
    by_cases hrs : N - N / 2 - 1 = 0
    · rw [if_pos hrs]
      rw [max_eq_left (le_trans (by norm_num) (Int.natCast_nonneg _))]
      omega
    · rw [if_neg hrs]
      have hle : N - N / 2 - 1 ≤ N / 2 := by omega
      have hmono : Nat.log2 (N - N / 2 - 1) ≤ Nat.log2 (N / 2) := log2_mono hle
      rw [max_eq_left (by exact_mod_cast hmono)]
      omega

/-- Balance bound of the midpoint split: the two child heights differ by at
most one. -/
theorem log2_balance_arith (N : Nat) (h : 0 < N) :
    ((if N / 2 = 0 then (-1 : Int) else (Nat.log2 (N / 2) : Int)) -
        (if N - N / 2 - 1 = 0 then (-1 : Int)
          else (Nat.log2 (N - N / 2 - 1) : Int))).natAbs ≤ 1 := by
  by_cases hN1 : N = 1
  · subst hN1; norm_num
  · have h2 : 2 ≤ N := by omega
    have hm1 : N / 2 ≠ 0 := by omega
    rw [if_neg hm1]
    by_cases hrs : N - N / 2 - 1 = 0
    · rw [if_pos hrs]
      have hN3 : N / 2 = 1 := by omega
      rw [hN3, log2_small (by norm_num)]
      norm_num
    · rw [if_neg hrs]
      have hle : N - N / 2 - 1 ≤ N / 2 := by omega
      have hmono : Nat.log2 (N - N / 2 - 1) ≤ Nat.log2 (N / 2) := log2_mono hle
      have hdouble : N / 2 ≤ 2 * (N - N / 2 - 1) := by omega
      have hup : Nat.log2 (N / 2) ≤ Nat.log2 (N - N / 2 - 1) + 1 := by
        calc Nat.log2 (N / 2) ≤ Nat.log2 (2 * (N - N / 2 - 1)) := log2_mono hdouble
          _ = Nat.log2 (2 * (N - N / 2 - 1) / 2) + 1 := log2_rec _ (by omega)
          _ = Nat.log2 (N - N / 2 - 1) + 1 := by
              rw [Nat.mul_div_cancel_left _ (by norm_num)]
      omega

/-- The height of a built tree is `-1` on the empty input and `⌊log2 n⌋` on
an input of length `n ≥ 1` (strong induction on the input length). -/
theorem height_buildTree_aux :
    ∀ (n : Nat) (values : List Int), values.length ≤ n →
      height (buildTree values) =
        if values.length = 0 then -1 else (Nat.log2 values.length : Int) := by
  intro n
  induction n with
  | zero =>
    intro values h
    have hnil : values = [] := List.eq_nil_of_length_eq_zero (by omega)
    subst hnil
    simp [buildTree_nil, height]
  | succ n ih =>
    intro values h
    by_cases h0 : values.length = 0
    · have hnil : values = [] := List.eq_nil_of_length_eq_zero h0
      subst hnil
      simp [buildTree_nil, height]
    · rw [buildTree_cons_eq _ h0, if_neg h0]
      have hpos : 0 < values.length := Nat.pos_of_ne_zero h0
      have hlen_t : (values.take (values.length / 2)).length =
          values.length / 2 := by
        rw [List.length_take]; omega
      have hlen_d : (values.drop (values.length / 2 + 1)).length =
          values.length - values.length / 2 - 1 := by
        rw [List.length_drop]; omega
      have ht := ih (values.take (values.length / 2)) (by rw [hlen_t]; omega)
      have hd := ih (values.drop (values.length / 2 + 1)) (by rw [hlen_d]; omega)
      rw [hlen_t] at ht
      rw [hlen_d] at hd
      show 1 + max (height (buildTree (values.take (values.length / 2))))
          (height (buildTree (values.drop (values.length / 2 + 1)))) = _
      rw [ht, hd]
      exact log2_height_arith values.length hpos

/-- The height of a built tree: `-1` when empty, `⌊log2 n⌋` otherwise. -/
theorem height_buildTree (values : List Int) :
    height (buildTree values) =
      if values.length = 0 then -1 else (Nat.log2 values.length : Int) :=
  height_buildTree_aux values.length values le_rfl

/-- Every tree produced by `#buildTree` satisfies `isBalanced` (strong
induction on the input length). -/
theorem isBalanced_buildTree_aux :
    ∀ (n : Nat) (values : List Int), values.length ≤ n →
      isBalanced (buildTree values) = true := by
  intro n
  induction n with
  | zero =>
    intro values h
    have hnil : values = [] := List.eq_nil_of_length_eq_zero (by omega)
    subst hnil
    rw [buildTree_nil]
    rfl
  | succ n ih =>
    intro values h
    by_cases h0 : values.length = 0
    · have hnil : values = [] := List.eq_nil_of_length_eq_zero h0
      subst hnil
      rw [buildTree_nil]
      rfl
    · rw [buildTree_cons_eq _ h0]
      have hpos : 0 < values.length := Nat.pos_of_ne_zero h0
      have hlen_t : (values.take (values.length / 2)).length =
          values.length / 2 := by
        rw [List.length_take]; omega
      have hlen_d : (values.drop (values.length / 2 + 1)).length =
          values.length - values.length / 2 - 1 := by
        rw [List.length_drop]; omega
      have hbt := ih (values.take (values.length / 2)) (by rw [hlen_t]; omega)
      have hbd := ih (values.drop (values.length / 2 + 1)) (by rw [hlen_d]; omega)
      have hht := height_buildTree (values.take (values.length / 2))
      have hhd := height_buildTree (values.drop (values.length / 2 + 1))
      rw [hlen_t] at hht
      rw [hlen_d] at hhd
      simp only [isBalanced]
      rw [hht, hhd, if_neg (by
        have := log2_balance_arith values.length hpos
        omega)]
      rw [Bool.and_eq_true]
      exact ⟨hbt, hbd⟩

/-- Every tree produced by `#buildTree` satisfies `isBalanced`. -/
theorem isBalanced_buildTree (values : List Int) :
    isBalanced (buildTree values) = true :=
  isBalanced_buildTree_aux values.length values le_rfl

/-- Claim C4: building from a strictly ascending, duplicate-free, non-empty
input of `n` values yields a tree of height `⌊log2 n⌋` on which `isBalanced`
returns true; concretely, building from `[1..7]` gives root value 4,
left-subtree root 2, right-subtree root 6, and height 2. -/
theorem build_balanced_height :
    (∀ values : List Int, List.Chain' (· < ·) values → values ≠ [] →
      height (buildTree values) = (Nat.log2 values.length : Int) ∧
        isBalanced (buildTree values) = true) ∧
    rootVal (buildTree [1, 2, 3, 4, 5, 6, 7]) = 4 ∧
    rootVal (treeLeft (buildTree [1, 2, 3, 4, 5, 6, 7])) = 2 ∧
    rootVal (treeRight (buildTree [1, 2, 3, 4, 5, 6, 7])) = 6 ∧
    height (buildTree [1, 2, 3, 4, 5, 6, 7]) = 2 := by
  refine ⟨?_, ?_, ?_, ?_, ?_⟩
  · intro values _ hne
    refine ⟨?_, isBalanced_buildTree values⟩
    rw [height_buildTree,
      if_neg (fun h0 => hne (List.eq_nil_of_length_eq_zero h0))]
  · rw [buildTree_seven]; rfl
  · rw [buildTree_seven]; rfl
  · rw [buildTree_seven]; rfl
  · rw [buildTree_seven]; decide

/-- The recursive in-order sequence of a built tree reproduces the input
array exactly (strong induction on the input length; sortedness is not even
needed for this identity). -/
theorem inorderVals_buildTree_aux :
    ∀ (n : Nat) (values : List Int), values.length ≤ n →
      inorderVals (buildTree values) = values := by
  intro n
  induction n with
  | zero =>
    intro values h
    have hnil : values = [] := List.eq_nil_of_length_eq_zero (by omega)
    subst hnil
    rw [buildTree_nil]
    rfl
  | succ n ih =>
    intro values h
    by_cases h0 : values.length = 0
    · have hnil : values = [] := List.eq_nil_of_length_eq_zero h0
      subst hnil
      rw [buildTree_nil]
      rfl
    · rw [buildTree_cons_eq _ h0]
      have hpos : 0 < values.length := Nat.pos_of_ne_zero h0
      have hm : values.length / 2 < values.length :=
        Nat.div_lt_self hpos (by norm_num)
      have hlen_t : (values.take (values.length / 2)).length ≤ n := by
        rw [List.length_take]; omega
      have hlen_d : (values.drop (values.length / 2 + 1)).length ≤ n := by
        rw [List.length_drop]; omega
      show inorderVals (.node _ _ _) = values
      rw [inorderVals, ih _ hlen_t, ih _ hlen_d]
      have hgetd : values.getD (values.length / 2) 0 =
          values[values.length / 2] := by
        rw [List.getD_eq_getElem?_getD, List.getElem?_eq_getElem hm]
        rfl
      rw [hgetd, ← List.drop_eq_getElem_cons hm, List.take_append_drop]

/-- The recursive in-order sequence of a built tree is the input array. -/
theorem inorderVals_buildTree (values : List Int) :
    inorderVals (buildTree values) = values :=
  inorderVals_buildTree_aux values.length values le_rfl

/-- The iterative in-order loop emits the in-order sequence of the current
subtree followed by the pending emissions of the stack. -/
theorem inLoop_eq : ∀ (c : DTree) (s : List DTree),
    inLoop c s = inD c ++ stackTail s := by
  intro c s
  induction c, s using inLoop.induct with
  | case1 s p v l r ih =>
    rw [inLoop, ih]
    simp [inD, stackTail, List.append_assoc]
  | case2 => rw [inLoop]; rfl
  | case3 rest ih => rw [inLoop, ih]; simp [stackTail]
  | case4 p v l r rest ih => rw [inLoop, ih]; simp [inD, stackTail]

/-- The iterative `inOrder` traversal coincides with the recursive in-order
node enumeration. -/
theorem inOrderNodes_eq (t : Tree) :
    inOrderNodes t = inD (decorate t []) := by
  cases hd : decorate t [] with
  | nil => simp [inOrderNodes, hd, inD]
  | node p v l r => simp [inOrderNodes, hd, inLoop_eq, stackTail]

/-- Flattening the pre-order enumerations of a conditional child push gives
the pre-order enumeration of the child. -/
theorem optNode_flatten_preD (d : DTree) :
    (((optNode d).map preD)).flatten = preD d := by
  cases d <;> simp [optNode, preD]

/-- Flattening the in-order enumerations of a conditional child push gives
the in-order enumeration of the child. -/
theorem optNode_flatten_inD (d : DTree) :
    (((optNode d).map inD)).flatten = inD d := by
  cases d <;> simp [optNode, inD]

/-- The iterative pre-order loop equals the concatenated recursive pre-order
enumeration of the stack. -/
theorem preLoop_eq : ∀ s : List DTree, preLoop s = (s.map preD).flatten := by
  intro s
  induction s using preLoop.induct with
  | case1 => rw [preLoop]; rfl
  | case2 rest ih => rw [preLoop, ih]; simp [preD]
  | case3 p v l r rest ih =>
    rw [preLoop, ih]
    simp [preD, optNode_flatten_preD, List.append_assoc]

/-- The iterative `preOrder` traversal coincides with the recursive
pre-order node enumeration. -/
theorem preOrderNodes_eq (t : Tree) :
    preOrderNodes t = preD (decorate t []) := by
  cases hd : decorate t [] with
  | nil => simp [preOrderNodes, hd, preD]
  | node p v l r => simp [preOrderNodes, hd, preLoop_eq]

/-- The level-order queue loop visits, in some order, exactly the nodes of
the queued subtrees. -/
theorem levelLoop_perm :
    ∀ q : List DTree, List.Perm (levelLoop q) ((q.map inD).flatten) := by
  intro q
  induction q using levelLoop.induct with
  | case1 => rw [levelLoop]; simp
  | case2 rest ih => rw [levelLoop]; simpa [inD] using ih
  | case3 p v l r rest ih =>
    rw [levelLoop]
    have h1 : List.Perm (levelLoop (rest ++ optNode l ++ optNode r))
        ((rest.map inD).flatten ++ (inD l ++ inD r)) := by
      simpa [optNode_flatten_inD, List.append_assoc] using ih
    have h2 : List.Perm
        (DTree.node p v l r ::
          ((rest.map inD).flatten ++ (inD l ++ inD r)))
        (inD l ++ DTree.node p v l r ::
          (inD r ++ (rest.map inD).flatten)) := by
      refine List.Perm.trans (List.Perm.cons _ List.perm_append_comm) ?_
      rw [List.append_assoc]
      exact List.perm_middle.symm
    have h3 := List.Perm.trans (List.Perm.cons (DTree.node p v l r) h1) h2
    simpa [inD, List.append_assoc] using h3

/-- The iterative `levelOrder` traversal visits exactly the nodes of the
tree, in some order. -/
theorem levelOrderNodes_perm (t : Tree) :
    List.Perm (levelOrderNodes t) (inD (decorate t [])) := by
  cases hd : decorate t [] with
  | nil => simp [levelOrderNodes, hd, inD]
  | node p v l r =>
    have h := levelLoop_perm [.node p v l r]
    simp only [levelOrderNodes, hd]
    simpa [inD] using h

/-- The recursive pre-order enumeration is a permutation of the in-order
enumeration. -/
theorem preD_perm_inD : ∀ d : DTree, List.Perm (preD d) (inD d) := by
  intro d
  induction d with
  | nil => exact List.Perm.refl _
  | node p v l r ihl ihr =>
    have h1 : List.Perm (preD (.node p v l r))
        (DTree.node p v l r :: (inD l ++ inD r)) :=
      List.Perm.cons _ (List.Perm.append ihl ihr)
    exact List.Perm.trans h1 List.perm_middle.symm

/-- The recursive post-order enumeration is a permutation of the in-order
enumeration. -/
theorem postD_perm_inD : ∀ d : DTree, List.Perm (postD d) (inD d) := by
  intro d
  induction d with
  | nil => exact List.Perm.refl _
  | node p v l r ihl ihr =>
    have h1 : List.Perm (postD r ++ [DTree.node p v l r])
        (DTree.node p v l r :: inD r) :=
      List.Perm.trans
        (List.Perm.append ihr (List.Perm.refl [DTree.node p v l r]))
        (List.perm_append_singleton _ _)
    show List.Perm (postD l ++ postD r ++ [DTree.node p v l r])
      (inD l ++ DTree.node p v l r :: inD r)
    rw [List.append_assoc]
    exact List.Perm.append ihl h1

/-- Every node path of a decorated tree extends the decoration's start
path. -/
theorem dpaths_decorate_extends :
    ∀ (t : Tree) (p q : List Bool), q ∈ dpaths (decorate t p) →
      ∃ s, q = p ++ s := by
  intro t
  induction t with
  | nil => intro p q hq; simp [decorate, dpaths] at hq
  | node v l r ihl ihr =>
    intro p q hq
    simp only [decorate, dpaths, List.mem_cons, List.mem_append] at hq
    rcases hq with rfl | hq | hq
    · exact ⟨[], by simp⟩
    · obtain ⟨s, hs⟩ := ihl _ _ hq
      exact ⟨false :: s, by simp [hs]⟩
    · obtain ⟨s, hs⟩ := ihr _ _ hq
      exact ⟨true :: s, by simp [hs]⟩

/-- The path of the root of a decorated non-empty tree is the start path. -/
theorem pathOf_decorate (t : Tree) (p : List Bool) (h : t ≠ .nil) :
    pathOf (decorate t p) = p := by
  cases t with
  | nil => exact absurd rfl h
  | node v l r => rfl

/-- Decoration is `nil` exactly on the empty tree. -/
theorem decorate_eq_nil_iff (t : Tree) (p : List Bool) :
    decorate t p = .nil ↔ t = .nil := by
  cases t <;> simp [decorate]

/-- The start path is a node path of any non-empty decorated tree. -/
theorem pathOf_mem_dpaths (t : Tree) (p : List Bool) (h : t ≠ .nil) :
    p ∈ dpaths (decorate t p) := by
  cases t with
  | nil => exact absurd rfl h
  | node v l r => simp [decorate, dpaths]

/-- A path ending in one direction bit never occurs in the subtree decorated
from the sibling direction bit. -/
theorem append_bit_not_mem_dpaths (p : List Bool) (b1 b2 : Bool)
    (hne : b1 ≠ b2) (t : Tree) :
    (p ++ [b1]) ∉ dpaths (decorate t (p ++ [b2])) := by
  intro hmem
  obtain ⟨s, hs⟩ := dpaths_decorate_extends t _ _ hmem
  rw [List.append_assoc] at hs
  have h2 : [b1] = [b2] ++ s := (List.append_right_inj p).mp hs
  have := congrArg List.length h2
  simp at this
  subst this
  simp at h2
  exact hne h2

/-- Membership of a path in the left branch of a decorated node. -/
theorem mem_dpaths_left {q : List Bool} (p : List Bool) (v : Int)
    (dl dr : DTree) (h : q ∈ dpaths dl) :
    q ∈ dpaths (DTree.node p v dl dr) := by
  simp only [dpaths, List.mem_cons, List.mem_append]
  exact Or.inr (Or.inl h)

/-- Membership of a path in the right branch of a decorated node. -/
theorem mem_dpaths_right {q : List Bool} (p : List Bool) (v : Int)
    (dl dr : DTree) (h : q ∈ dpaths dr) :
    q ∈ dpaths (DTree.node p v dl dr) := by
  simp only [dpaths, List.mem_cons, List.mem_append]
  exact Or.inr (Or.inr h)

/-- Running the `postOrder` loop on a decorated non-empty subtree with
`postSteps` fuel for that subtree emits exactly its recursive post-order
enumeration, leaves the stack untouched, records the subtree root as last
visited, and continues with the remaining fuel.  The hypothesis on `lv` says
the incoming last-visited node (if any) does not lie inside the subtree,
which is how JavaScript object identity behaves for a marker taken from
outside the subtree. -/
theorem postLoopF_run :
    ∀ (t : Tree) (p : List Bool), t ≠ .nil →
      ∀ (k : Nat) (s : List DTree) (lv : Option DTree),
        (∀ d, lv = some d → pathOf d ∉ dpaths (decorate t p)) →
        postLoopF (postSteps (decorate t p) + k) (decorate t p) s lv =
          (postLoopF k .nil s (some (decorate t p))).map
            (fun out => postD (decorate t p) ++ out) := by
  intro t
  induction t with
  | nil => intro p h; exact absurd rfl h
  | node v l r ihl ihr =>
    intro p _ k s lv hlv
    have hD : decorate (Tree.node v l r) p =
        DTree.node p v (decorate l (p ++ [false])) (decorate r (p ++ [true])) :=
      rfl
    rw [hD] at hlv ⊢
    cases l with
    | nil =>
      rw [show decorate Tree.nil (p ++ [false]) = DTree.nil from rfl] at hlv ⊢
      cases r with
      | nil =>
        rw [show decorate Tree.nil (p ++ [true]) = DTree.nil from rfl]
          at hlv ⊢
        have hps : postSteps (DTree.node p v DTree.nil DTree.nil) = 2 := rfl
        rw [hps, show 2 + k = (1 + k) + 1 from by omega, postLoopF,
          show 1 + k = k + 1 from by omega, postLoopF, if_neg (by simp)]
        simp [postD]
      | node rv ra rb =>
        set dr := decorate (Tree.node rv ra rb) (p ++ [true]) with hdr
        have hrne : dr ≠ DTree.nil := by
          rw [hdr]; simp [decorate_eq_nil_iff]
        have hpdr : pathOf dr = p ++ [true] := by
          rw [hdr, pathOf_decorate _ _ (by simp)]
        have hlvne : lv ≠ some dr := by
          intro hEq
          refine hlv dr hEq ?_
          rw [hpdr]
          refine mem_dpaths_right p v DTree.nil dr ?_
          rw [hdr, ← hpdr, hdr]
          exact pathOf_mem_dpaths _ _ (by simp)
        have hfresh_r : ∀ d, lv = some d → pathOf d ∉ dpaths dr := by
          intro d hd hmem
          exact hlv d hd (mem_dpaths_right p v DTree.nil dr hmem)
        have hps : postSteps (DTree.node p v DTree.nil dr) =
            1 + 0 + (1 + postSteps dr) + 1 := by rfl
        have hstep_r := ihr (p ++ [true]) (by simp) (1 + k)
          (DTree.node p v DTree.nil dr :: s) lv
          (by rw [← hdr]; exact hfresh_r)
        rw [← hdr] at hstep_r
        clear_value dr
        rw [hps,
          show 1 + 0 + (1 + postSteps dr) + 1 + k =
            ((1 + postSteps dr) + 1 + k) + 1 from by omega,
          postLoopF,
          show (1 + postSteps dr) + 1 + k = (postSteps dr + (1 + k)) + 1
            from by omega,
          postLoopF, if_pos ⟨hrne, hlvne⟩, hstep_r,
          show 1 + k = k + 1 from by omega, postLoopF, if_neg (by simp)]
        simp [Option.map_map, postD, Function.comp_def, List.append_assoc]
    | node lvv lla llb =>
      set dl := decorate (Tree.node lvv lla llb) (p ++ [false]) with hdl
      have hlne : dl ≠ DTree.nil := by
        rw [hdl]; simp [decorate_eq_nil_iff]
      have hpdl : pathOf dl = p ++ [false] := by
        rw [hdl, pathOf_decorate _ _ (by simp)]
      cases r with
      | nil =>
        rw [show decorate Tree.nil (p ++ [true]) = DTree.nil from rfl]
          at hlv ⊢
        have hfresh_l : ∀ d, lv = some d → pathOf d ∉ dpaths dl := by
          intro d hd hmem
          exact hlv d hd (mem_dpaths_left p v dl DTree.nil hmem)
        have hps : postSteps (DTree.node p v dl DTree.nil) =
            1 + postSteps dl + 0 + 1 := by rfl
        have hstep_l := ihl (p ++ [false]) (by simp) (1 + k)
          (DTree.node p v dl DTree.nil :: s) lv
          (by rw [← hdl]; exact hfresh_l)
        rw [← hdl] at hstep_l
        clear_value dl
        rw [hps,
          show 1 + postSteps dl + 0 + 1 + k = (postSteps dl + (1 + k)) + 1
            from by omega,
          postLoopF, hstep_l,
          show 1 + k = k + 1 from by omega, postLoopF, if_neg (by simp)]
        simp [Option.map_map, postD, Function.comp_def, List.append_assoc]
      | node rv ra rb =>
        set dr := decorate (Tree.node rv ra rb) (p ++ [true]) with hdr
        have hrne : dr ≠ DTree.nil := by
          rw [hdr]; simp [decorate_eq_nil_iff]
        have hpdr : pathOf dr = p ++ [true] := by
          rw [hdr, pathOf_decorate _ _ (by simp)]
        have hdlr : dl ≠ dr := by
          intro hEq
          have h2 := congrArg pathOf hEq
          rw [hpdl, hpdr] at h2
          simp at h2
        have hfresh_l : ∀ d, lv = some d → pathOf d ∉ dpaths dl := by
          intro d hd hmem
          exact hlv d hd (mem_dpaths_left p v dl dr hmem)
        have hfresh_r : ∀ d, (some dl : Option DTree) = some d →
            pathOf d ∉ dpaths dr := by
          intro d hd
          have hd2 : d = dl := (Option.some.inj hd).symm
          subst hd2
          rw [hpdl, hdr]
          exact append_bit_not_mem_dpaths p false true (by simp) _
        have hps : postSteps (DTree.node p v dl dr) =
            1 + postSteps dl + (1 + postSteps dr) + 1 := by rfl
        have hstep_l := ihl (p ++ [false]) (by simp)
          (1 + postSteps dr + 1 + k) (DTree.node p v dl dr :: s) lv
          (by rw [← hdl]; exact hfresh_l)
        rw [← hdl] at hstep_l
        have hstep_r := ihr (p ++ [true]) (by simp) (1 + k)
          (DTree.node p v dl dr :: s) (some dl)
          (by rw [← hdr]; exact hfresh_r)
        rw [← hdr] at hstep_r
        clear_value dl dr
        rw [hps,
          show 1 + postSteps dl + (1 + postSteps dr) + 1 + k =
            (postSteps dl + (1 + postSteps dr + 1 + k)) + 1 from by omega,
          postLoopF, hstep_l,
          show 1 + postSteps dr + 1 + k = (postSteps dr + (1 + k)) + 1
            from by omega,
          postLoopF,
          if_pos ⟨hrne, fun hEq => hdlr (Option.some.inj hEq)⟩, hstep_r,
          show 1 + k = k + 1 from by omega, postLoopF, if_neg (by simp)]
        simp [Option.map_map, postD, Function.comp_def, List.append_assoc]

/-- The iterative `postOrder` traversal coincides with the recursive
post-order node enumeration. -/
theorem postOrderNodes_eq (t : Tree) :
    postOrderNodes t = postD (decorate t []) := by
  cases t with
  | nil => rfl
  | node v l r =>
    have h := postLoopF_run (Tree.node v l r) [] (by simp) 1 [] none
      (by simp)
    simp only [postOrderNodes]
    rw [show decorate (Tree.node v l r) [] =
      DTree.node [] v (decorate l [false]) (decorate r [true]) from rfl] at h ⊢
    dsimp only
    rw [h, show postLoopF 1 DTree.nil []
      (some (DTree.node [] v (decorate l [false]) (decorate r [true]))) =
      some [] from rfl]
    simp

/-- The values of the recursive in-order node enumeration of a decorated
tree are the recursive in-order values of the underlying tree. -/
theorem inD_map_dvalue :
    ∀ (t : Tree) (p : List Bool),
      (inD (decorate t p)).map dvalue = inorderVals t := by
  intro t
  induction t with
  | nil => intro p; rfl
  | node v l r ihl ihr =>
    intro p
    simp [decorate, inD, inorderVals, ihl, ihr, dvalue]

/-- The iterative `inOrder` value sequence is the recursive in-order value
sequence. -/
theorem inOrderValues_eq (t : Tree) : inOrderValues t = inorderVals t := by
  rw [inOrderValues, inOrderNodes_eq, inD_map_dvalue]

/-- Membership in the in-order value sequence is membership in the tree. -/
theorem mem_inorderVals :
    ∀ (t : Tree) (w : Int), w ∈ inorderVals t ↔ contains w t = true := by
  intro t
  induction t with
  | nil => intro w; simp [inorderVals, contains]
  | node v l r ihl ihr =>
    intro w
    rw [inorderVals, contains_node_iff]
    simp only [List.mem_append, List.mem_cons, ihl, ihr]
    tauto

/-- On a BST, the in-order value sequence is strictly increasing. -/
theorem inorderVals_pairwise :
    ∀ t : Tree, isBST t = true → List.Pairwise (· < ·) (inorderVals t) := by
  intro t
  induction t with
  | nil => intro _; simp [inorderVals]
  | node v l r ihl ihr =>
    intro hb
    rw [isBST_node_iff] at hb
    obtain ⟨hal, har, hbl, hbr⟩ := hb
    rw [inorderVals, List.pairwise_append]
    refine ⟨ihl hbl, ?_, ?_⟩
    · rw [List.pairwise_cons]
      refine ⟨?_, ihr hbr⟩
      intro y hy
      have := allB_contains har ((mem_inorderVals r y).mp hy)
      simpa using this
    · intro x hx y hy
      have hxv : x < v := by
        have := allB_contains hal ((mem_inorderVals l x).mp hx)
        simpa using this
      rcases List.mem_cons.mp hy with rfl | hy2
      · exact hxv
      · have hvy : v < y := by
          have := allB_contains har ((mem_inorderVals r y).mp hy2)
          simpa using this
        omega

/-- The paths of the recursive in-order enumeration are a permutation of the
paths of all nodes. -/
theorem inD_map_pathOf_perm_dpaths :
    ∀ d : DTree, List.Perm ((inD d).map pathOf) (dpaths d) := by
  intro d
  induction d with
  | nil => exact List.Perm.refl _
  | node p v l r ihl ihr =>
    rw [inD, dpaths, List.map_append, List.map_cons]
    simp only [pathOf]
    refine List.Perm.trans List.perm_middle ?_
    exact List.Perm.cons _ (List.Perm.append ihl ihr)

/-- All node paths of a decorated tree are distinct: decorated structural
equality is a faithful model of node identity. -/
theorem dpaths_nodup :
    ∀ (t : Tree) (p : List Bool), (dpaths (decorate t p)).Nodup := by
  intro t
  induction t with
  | nil => intro p; simp [decorate, dpaths]
  | node v l r ihl ihr =>
    intro p
    rw [show decorate (Tree.node v l r) p = DTree.node p v
      (decorate l (p ++ [false])) (decorate r (p ++ [true])) from rfl]
    rw [dpaths, List.nodup_cons]
    constructor
    · intro hmem
      rcases List.mem_append.mp hmem with h | h
      · obtain ⟨s2, hs⟩ := dpaths_decorate_extends _ _ _ h
        have := congrArg List.length hs
        simp at this
      · obtain ⟨s2, hs⟩ := dpaths_decorate_extends _ _ _ h
        have := congrArg List.length hs
        simp at this
    · rw [List.nodup_append]
      refine ⟨ihl _, ihr _, ?_⟩
      intro q hq1 hq2
      obtain ⟨s1, hs1⟩ := dpaths_decorate_extends _ _ _ hq1
      obtain ⟨s2, hs2⟩ := dpaths_decorate_extends _ _ _ hq2
      rw [hs1, List.append_assoc, List.append_assoc] at hs2
      have := (List.append_right_inj p).mp hs2
      simp at this

/-- The canonical node enumeration contains every node exactly once: its
path list has no duplicates. -/
theorem inD_paths_nodup (t : Tree) :
    ((inD (decorate t [])).map pathOf).Nodup :=
  (inD_map_pathOf_perm_dpaths (decorate t [])).nodup_iff.mpr (dpaths_nodup t [])

/-- Claim C3: for every strictly ascending, duplicate-free input sequence,
building a tree and running the iterative in-order traversal yields exactly
the input sequence. -/
theorem inorder_of_build_sorted_input :
    ∀ values : List Int, List.Chain' (· < ·) values →
      inOrderValues (buildTree values) = values := by
  intro values _
  rw [inOrderValues_eq, inorderVals_buildTree]

/-- Witness for C3 on a concrete ascending input. -/
theorem inorder_of_build_sorted_input_witness :
    List.Chain' (· < ·) ([1, 2, 3] : List Int) ∧
      inOrderValues (buildTree [1, 2, 3]) = [1, 2, 3] :=
  ⟨by norm_num [List.chain'_cons], inorder_of_build_sorted_input [1, 2, 3]
    (by norm_num [List.chain'_cons])⟩

/-- Claim C9: after `rebalance()` (collect all values by in-order traversal,
rebuild via `#buildTree`), `isBalanced` returns true and the in-order output
is unchanged. -/
theorem rebalance_balanced_inorder_preserved :
    ∀ t : Tree, isBalanced (rebalance t) = true ∧
      inOrderValues (rebalance t) = inOrderValues t := by
  intro t
  constructor
  · rw [rebalance]
    exact isBalanced_buildTree _
  · rw [rebalance, inOrderValues_eq (buildTree (inOrderValues t)),
      inorderVals_buildTree]

/-- Claim C8: each of the four iterative traversals visits exactly the nodes
of the tree — their node sequences are permutations of the canonical
duplicate-free node enumeration (`inOrder` even equals it) — and the value
sequence `inOrder` emits is the strictly sorted sequence of all values in
the tree. -/
theorem traversals_once_inorder_sorted :
    ∀ t : Tree, isBST t = true →
      List.Perm (levelOrderNodes t) (inD (decorate t [])) ∧
      List.Perm (preOrderNodes t) (inD (decorate t [])) ∧
      inOrderNodes t = inD (decorate t []) ∧
      List.Perm (postOrderNodes t) (inD (decorate t [])) ∧
      ((inD (decorate t [])).map pathOf).Nodup ∧
      (inOrderNodes t).map dvalue = inorderVals t ∧
      List.Pairwise (· < ·) (inorderVals t) ∧
      (∀ v, v ∈ inorderVals t ↔ contains v t = true) := by
  intro t hb
  refine ⟨levelOrderNodes_perm t, ?_, inOrderNodes_eq t, ?_,
    inD_paths_nodup t, ?_, inorderVals_pairwise t hb,
    fun v => mem_inorderVals t v⟩
  · rw [preOrderNodes_eq]
    exact preD_perm_inD _
  · rw [postOrderNodes_eq]
    exact postD_perm_inD _
  · rw [inOrderNodes_eq, inD_map_dvalue]

/-- Witness for C8 on a concrete BST. -/
theorem traversals_once_inorder_sorted_witness :
    isBST (.node 2 (.node 1 .nil .nil) (.node 3 .nil .nil)) = true ∧
      (List.Perm (levelOrderNodes (.node 2 (.node 1 .nil .nil) (.node 3 .nil .nil)))
          (inD (decorate (.node 2 (.node 1 .nil .nil) (.node 3 .nil .nil)) [])) ∧
        List.Perm (preOrderNodes (.node 2 (.node 1 .nil .nil) (.node 3 .nil .nil)))
          (inD (decorate (.node 2 (.node 1 .nil .nil) (.node 3 .nil .nil)) [])) ∧
        inOrderNodes (.node 2 (.node 1 .nil .nil) (.node 3 .nil .nil)) =
          inD (decorate (.node 2 (.node 1 .nil .nil) (.node 3 .nil .nil)) []) ∧
        List.Perm (postOrderNodes (.node 2 (.node 1 .nil .nil) (.node 3 .nil .nil)))
          (inD (decorate (.node 2 (.node 1 .nil .nil) (.node 3 .nil .nil)) [])) ∧
        ((inD (decorate (.node 2 (.node 1 .nil .nil) (.node 3 .nil .nil)) [])).map
          pathOf).Nodup ∧
        (inOrderNodes (.node 2 (.node 1 .nil .nil) (.node 3 .nil .nil))).map dvalue =
          inorderVals (.node 2 (.node 1 .nil .nil) (.node 3 .nil .nil)) ∧
        List.Pairwise (· < ·)
          (inorderVals (.node 2 (.node 1 .nil .nil) (.node 3 .nil .nil))) ∧
        (∀ v, v ∈ inorderVals (.node 2 (.node 1 .nil .nil) (.node 3 .nil .nil)) ↔
          contains v (.node 2 (.node 1 .nil .nil) (.node 3 .nil .nil)) = true)) :=
  ⟨by decide,
    traversals_once_inorder_sorted
      (.node 2 (.node 1 .nil .nil) (.node 3 .nil .nil)) (by decide)⟩

/-- Claim C6: calling `insert` with a value already present in the (well
formed, BST-ordered) tree stored on the heap fails with the
`DuplicateValue` error and returns the heap exactly as it was — the throw
happens before any node or link is written, and the exception propagates
before any pending child-link assignment runs. -/
theorem insert_duplicate_error_heap_unchanged :
    ∀ (fuel : Nat) (h : Heap) (root : Option Nat) (t : Tree) (v : Int),
      readTree fuel h root = some t → isBST t = true → contains v t = true →
      insertH fuel v h root =
        some (h, Except.error (JsError.duplicateValue v)) := by
  intro fuel
  induction fuel with
  | zero => intro h root t v hr; simp [readTree] at hr
  | succ fuel ih =>
    intro h root t v hr hb hc
    cases root with
    | none =>
      rw [readTree] at hr
      have ht : t = Tree.nil := by
        have := Option.some.inj hr
        exact this.symm
      subst ht
      simp [contains] at hc
    | some a =>
      rw [readTree] at hr
      cases hget : h.get? a with
      | none => rw [hget] at hr; simp at hr
      | some nd =>
        rw [hget] at hr
        dsimp only at hr
        cases hl : readTree fuel h nd.left with
        | none => rw [hl] at hr; simp at hr
        | some l =>
          cases hrr : readTree fuel h nd.right with
          | none => rw [hl, hrr] at hr; simp at hr
          | some r =>
            rw [hl, hrr] at hr
            have ht : t = Tree.node nd.value l r := by
              have := Option.some.inj hr
              exact this.symm
            subst ht
            rw [isBST_node_iff] at hb
            obtain ⟨hal, har, hbl, hbr⟩ := hb
            rw [contains_node_iff] at hc
            rw [insertH, hget]
            dsimp only
            rcases lt_trichotomy v nd.value with hlt | heq | hgt
            · have hcl : contains v l = true := by
                rcases hc with heq2 | hcl | hcr
                · omega
                · exact hcl
                · exfalso
                  have := allB_contains har hcr
                  simp at this
                  omega
              rw [if_neg (by omega), if_pos hlt, ih h nd.left l v hl hbl hcl]
            · rw [if_pos heq]
            · have hcr : contains v r = true := by
                rcases hc with heq2 | hcl | hcr
                · omega
                · exfalso
                  have := allB_contains hal hcl
                  simp at this
                  omega
                · exact hcr
              rw [if_neg (by omega), if_neg (by omega), if_pos hgt,
                ih h nd.right r v hrr hbr hcr]

/-- Witness for C6 on a concrete one-node heap. -/
theorem insert_duplicate_error_heap_unchanged_witness :
    readTree 2 [⟨5, none, none⟩] (some 0) = some (.node 5 .nil .nil) ∧
      isBST (.node 5 .nil .nil) = true ∧
      contains 5 (.node 5 .nil .nil) = true ∧
      insertH 2 5 [⟨5, none, none⟩] (some 0) =
        some ([⟨5, none, none⟩], Except.error (JsError.duplicateValue 5)) :=
  ⟨by decide, by decide, by decide,
    insert_duplicate_error_heap_unchanged 2 [⟨5, none, none⟩] (some 0)
      (.node 5 .nil .nil) 5 (by decide) (by decide) (by decide)⟩

/-- Claim C10: neither `insert` nor `remove` ever writes the tree's `root`
attribute — the methods mutate child links in the heap and merely return the
new subtree root.  On a non-empty tree, `insert` returns the very address it
was given, so the root node object stays the root; `remove` may return a
different address (concretely, removing the only node returns the absent
result while the `root` attribute still holds the old node's address), so
the caller must store the returned value for the root to change. -/
theorem insert_remove_never_write_root :
    (∀ (fuel : Nat) (v : Int) (st : BSTState)
        (out : BSTState × Except JsError Nat),
      insertMethod fuel v st = some out → out.1.root = st.root) ∧
    (∀ (fuel : Nat) (v : Int) (st : BSTState) (out : BSTState × Option Nat),
      removeMethod fuel v st = some out → out.1.root = st.root) ∧
    (∀ (fuel : Nat) (v : Int) (h h2 : Heap) (a ret : Nat),
      insertH fuel v h (some a) = some (h2, Except.ok ret) → ret = a) ∧
    removeMethod 2 5 ⟨[⟨5, none, none⟩], some 0⟩ =
      some (⟨[⟨5, none, none⟩], some 0⟩, none) ∧
    (⟨[⟨5, none, none⟩], some 0⟩ : BSTState).root ≠ (none : Option Nat) := by
  refine ⟨?_, ?_, ?_, by decide, by decide⟩
  · intro fuel v st out hm
    rw [insertMethod] at hm
    cases hins : insertH fuel v st.heap st.root with
    | none => rw [hins] at hm; simp at hm
    | some pr =>
      obtain ⟨h2, res⟩ := pr
      rw [hins] at hm
      have := Option.some.inj hm
      rw [← this]
  · intro fuel v st out hm
    rw [removeMethod] at hm
    cases hrem : removeH fuel v st.heap st.root with
    | none => rw [hrem] at hm; simp at hm
    | some pr =>
      obtain ⟨h2, res⟩ := pr
      rw [hrem] at hm
      have := Option.some.inj hm
      rw [← this]
  · intro fuel v h h2 a ret hins
    cases fuel with
    | zero => simp [insertH] at hins
    | succ fuel =>
      rw [insertH] at hins
      cases hget : h.get? a with
      | none => rw [hget] at hins; simp at hins
      | some nd =>
        rw [hget] at hins
        dsimp only at hins
        by_cases h1 : v = nd.value
        · rw [if_pos h1] at hins
          simp at hins
        · rw [if_neg h1] at hins
          by_cases h2lt : v < nd.value
          · rw [if_pos h2lt] at hins
            cases hrec : insertH fuel v h nd.left with
            | none => rw [hrec] at hins; simp at hins
            | some pr =>
              obtain ⟨h3, res⟩ := pr
              rw [hrec] at hins
              cases res with
              | error e => simp at hins
              | ok a2 =>
                dsimp only at hins
                cases hget2 : h3.get? a with
                | none => rw [hget2] at hins; simp at hins
                | some nd2 =>
                  rw [hget2] at hins
                  simp at hins
                  exact hins.2.symm
          · rw [if_neg h2lt] at hins
            by_cases h3gt : v > nd.value
            · rw [if_pos h3gt] at hins
              cases hrec : insertH fuel v h nd.right with
              | none => rw [hrec] at hins; simp at hins
              | some pr =>
                obtain ⟨h3, res⟩ := pr
                rw [hrec] at hins
                cases res with
                | error e => simp at hins
                | ok a2 =>
                  dsimp only at hins
                  cases hget2 : h3.get? a with
                  | none => rw [hget2] at hins; simp at hins
                  | some nd2 =>
                    rw [hget2] at hins
                    simp at hins
                    exact hins.2.symm
            · rw [if_neg h3gt] at hins
              simp at hins
              exact hins.2.symm

end BST

